import Mathlib

/-!
Verification of the coil-positioning core of BLUEPRINT/equilibria/positioner.py.

The development shallowly embeds the arithmetic and control flow of
CoilPositioner, XZLMapper and RegionInterpolator over exact rationals.
Numpy arrays are modelled as lists with explicit bounds-checked writes
(an out-of-range write is an IndexError, as in numpy); code paths that
raise Python exceptions return Except.error.  External collaborators
(scipy minimisation, plane-loop intersection, convex-hull area) are
modelled from the specification where noted.
-/

namespace Positioner

/-- numpy clip: clip(x, lo, hi) = min(max(x, lo), hi), used by tools.clip. -/
def clipQ (x lo hi : ℚ) : ℚ := min (max x lo) hi

/-- Bounds-checked list write, modelling a numpy array element assignment:
writing at an index outside the array raises IndexError. -/
def setLE (l : List ℚ) (i : ℕ) (v : ℚ) : Except String (List ℚ) :=
  if i < l.length then .ok (l.set i v) else .error "IndexError"

/-- Elementwise combination of three equal-length vectors
(numpy broadcasting of a ternary operation). -/
def zipWith3 (f : ℚ → ℚ → ℚ → ℚ) : List ℚ → List ℚ → List ℚ → List ℚ
  | x :: xs, y :: ys, z :: zs => f x y z :: zipWith3 f xs ys zs
  | _, _, _ => []

/-- Insert one element into a descending-sorted list. -/
def insertDesc (x : ℚ) : List ℚ → List ℚ
  | [] => [x]
  | y :: ys => if y ≤ x then x :: y :: ys else y :: insertDesc x ys

/-- Descending sort, modelling np.sort(v)[::-1] on rational values. -/
def sortDesc (l : List ℚ) : List ℚ := l.foldr insertDesc []

/-- Effectful elementwise map over Except, modelling applying a
bounds-checked scipy interpolator to each entry of a numpy vector. -/
def mapME (f : ℚ → Except String ℚ) : List ℚ → Except String (List ℚ)
  | [] => .ok []
  | x :: xs =>
    match f x with
    | .error e => .error e
    | .ok y =>
      match mapME f xs with
      | .error e => .error e
      | .ok ys => .ok (y :: ys)

/-! ## CoilPositioner: initial coil layout generation -/

/-- A coil descriptor as built by CoilPositioner: Coil(x, z, dx=.., dz=.., ctype=..).
dx and dz are the half-width and half-height of the coil. -/
structure CoilGen where
  x : ℚ
  z : ℚ
  dx : ℚ
  dz : ℚ
  ctype : String
deriving DecidableEq, Repr

/-- Default coil used only as a getD fallback. -/
def coilGen0 : CoilGen := ⟨0, 0, 0, 0, ""⟩

/-- A Solenoid as constructed by the positioner.  Solenoid itself is an
external collaborator (BLUEPRINT.equilibria.coils); the model records the
construction arguments.  coils = none corresponds to the default
equal-module construction (no explicit coils argument passed). -/
structure SolenoidM where
  x_cs : ℚ
  tk_cs : ℚ
  z_min : ℚ
  z_max : ℚ
  n : ℕ
  gap : ℚ
  coils : Option (List CoilGen)
deriving DecidableEq, Repr

/-- CoilPositioner.equispace_CS: Solenoid(x_cs, tk_cs, z_min, z_max, n_CS, gap=csgap). -/
def equispace_CS (csgap x_cs tk_cs z_min z_max : ℚ) (n_CS : ℕ) : SolenoidM :=
  ⟨x_cs, tk_cs, z_min, z_max, n_CS, csgap, none⟩

/-- The DEMO module length of demospace_CS:
((z_max - z_min) - (n_CS - 1) csgap) / (n_CS + 1). -/
def demo_length (csgap z_min z_max : ℚ) (n_CS : ℕ) : ℚ :=
  ((z_max - z_min) - ((n_CS : ℚ) - 1) * csgap) / ((n_CS : ℚ) + 1)

/-- The spacing coefficient vector a of demospace_CS:
np.linspace(1, 2 n - 1, n) has unit step 2 (entry 1 + 2 i), then
a[n//2:] += 2 and finally a[n//2] = n + 1. -/
def demo_a (n_CS : ℕ) : List ℚ :=
  (List.range n_CS).map (fun i =>
    if i = n_CS / 2 then (n_CS : ℚ) + 1
    else (1 + 2 * (i : ℚ)) + (if n_CS / 2 ≤ i then 2 else 0))

/-- The module centres of demospace_CS:
z_cs = z_max - (a * length / 2 + b * csgap) with b = np.linspace(0, n-1, n). -/
def demo_z_cs (csgap z_min z_max : ℚ) (n_CS : ℕ) : List ℚ :=
  (List.range n_CS).map (fun i =>
    z_max - ((demo_a n_CS).getD i 0 * demo_length csgap z_min z_max n_CS / 2
      + (i : ℚ) * csgap))

/-- The module half-heights of demospace_CS: length/2 everywhere
(np.ones scaling), overwritten to length at the central index n//2. -/
def demo_heights (csgap z_min z_max : ℚ) (n_CS : ℕ) : List ℚ :=
  (List.replicate n_CS (demo_length csgap z_min z_max n_CS / 2)).set (n_CS / 2)
    (demo_length csgap z_min z_max n_CS)

/-- CoilPositioner.demospace_CS.  The Bool records whether the diagnostic
warning (bluemira_warn) was emitted.  For odd n_CS greater than 2 the
DEMO-style stack is built from the module length, spacing vector, centres
and half-heights above; Coil(x_cs, z, dx=tk_cs, dz=dz, ctype="CS") per
module. -/
def demospace_CS (csgap x_cs tk_cs z_min z_max : ℚ) (n_CS : ℕ) : Bool × SolenoidM :=
  if n_CS ≤ 2 ∨ n_CS % 2 = 0 then
    (true, equispace_CS csgap x_cs tk_cs z_min z_max n_CS)
  else
    let c : List CoilGen := List.zipWith (fun z dz => CoilGen.mk x_cs z tk_cs dz "CS")
      (demo_z_cs csgap z_min z_max n_CS) (demo_heights csgap z_min z_max n_CS)
    (false, ⟨x_cs, tk_cs, z_min, z_max, n_CS, csgap, some c⟩)

/-- The coil list of the DEMO-style solenoid (empty for the degraded case). -/
def demospaceCoils (csgap x_cs tk_cs z_min z_max : ℚ) (n_CS : ℕ) : List CoilGen :=
  ((demospace_CS csgap x_cs tk_cs z_min z_max n_CS).2.coils).getD []

/-- Full heights of a list of coil modules: dz is a half-height, so the
full height of each module is 2 * dz. -/
def fullHeights (cs : List CoilGen) : List ℚ := cs.map (fun c => 2 * c.dz)

/-- An entry of the coil collection assembled by make_coilset: either a PF
coil or the appended Solenoid. -/
inductive CoilEntry where
  | pf (c : CoilGen)
  | sol (s : SolenoidM)
deriving DecidableEq, Repr

/-- CoilPositioner.make_coilset.  The PF coils produced by equispace_PF are
passed in as a list: equispace_PF depends on external track projection and
interpolation collaborators and, per the specification, never raises
(projection misses fall back to track endpoints).  z_max is max(track.z)
and z_min = -z_max.  An unknown cslayout raises ValueError when n_CS is
non-zero. -/
def make_coilset (pfCoils : List CoilGen) (trackZmax x_cs tk_cs csgap : ℚ)
    (n_CS : ℕ) (cslayout : String) : Except String (List CoilEntry) :=
  let coils : List CoilEntry := pfCoils.map CoilEntry.pf
  let z_max := trackZmax
  let z_min := -z_max
  if n_CS ≠ 0 then
    if cslayout = "ITER" then
      .ok (coils ++ [.sol (equispace_CS csgap x_cs tk_cs z_min z_max n_CS)])
    else if cslayout = "DEMO" then
      .ok (coils ++ [.sol (demospace_CS csgap x_cs tk_cs z_min z_max n_CS).2])
    else
      .error "Elige entre ITER y DEMO. Mas opciones no hay."
  else
    .ok coils

/-! ## XZLMapper: track mapper for the optimiser -/

/-- A coil record as read by XZLMapper.get_Lmap from the coilset
collaborator: name, position, effective radius rc and coil type. -/
structure CoilM where
  name : String
  x : ℚ
  z : ℚ
  rc : ℚ
  ctype : String
deriving DecidableEq, Repr

/-- The XZLMapper state used by get_Lmap.  xz_to_L abstracts the
scipy bounded scalar minimisation over the PF track interpolator
(external collaborator); plen is pfloop.length; exclusions is the sorted
interval store built by add_exclusion_zones (None before any zones are
registered); the CS fields mirror the constructor arguments. -/
structure MapperM where
  xz_to_L : ℚ → ℚ → ℚ
  plen : ℚ
  exclusions : Option (List (ℚ × ℚ))
  flag_CS : Bool
  z_min : ℚ
  z_max : ℚ
  gap : ℚ

/-- cstrack["L"]: interp1d([z_max, z_min], [0, 1]) evaluated at z.
Modelled from the spec: scipy interp1d (external) sorts its nodes, linearly
interpolates between them (L(z_max) = 0, L(z_min) = 1 gives
(z_max - z)/(z_max - z_min) for the construction-ordered case
z_min < z_max) and raises ValueError outside the node range. -/
def cstrack_L (z_min z_max z : ℚ) : Except String ℚ :=
  if z_min ≤ z ∧ z ≤ z_max then .ok ((z_max - z) / (z_max - z_min))
  else .error "ValueError: above or below the interpolation range"

/-- Middle edges of XZLMapper.z_to_L: z_edge[i] = zc[i] - (z_edge[i-1] - zc[i] - gap),
iterated over the interior module centres. -/
def edge_loop (gap : ℚ) : ℚ → List ℚ → List ℚ
  | _, [] => []
  | prev, z :: zs =>
    let e := z - (prev - z - gap)
    e :: edge_loop gap e zs

/-- XZLMapper.z_to_L: convert CS module centre-z values into L values on the
CS track.  The input is sorted descending; a single module short-circuits to
[0.5]; an empty input hits z_edge[0] on a zero-length numpy array
(IndexError).  Otherwise the first edge is z_max - 2|z_max - zc[0]|, the
interior edges follow the recurrence, the last edge is z_min, and the edge
vector is pushed through the cstrack interpolator. -/
def z_to_L (z_min z_max gap : ℚ) (zc_vec : List ℚ) : Except String (List ℚ) :=
  let zc := sortDesc zc_vec
  match zc with
  | [] => .error "IndexError"
  | [_] => .ok [1/2]
  | z0 :: z1 :: rest =>
    let e0 := z_max - 2 * |z_max - z0|
    let mids := (z1 :: rest).dropLast
    let edges := (e0 :: edge_loop gap e0 mids) ++ [z_min]
    mapME (cstrack_L z_min z_max) edges

/-- The exclusion nudge loop inside XZLMapper.get_Lmap: for the first
exclusion interval strictly containing loc, step to whichever of
ex[1] - loc + 2 rc / plen (forward) and -(loc - ex[0] + 2 rc / plen)
(backward) has the smaller magnitude, ties going forward; if no interval
contains loc the position is unchanged (d_l = 0). -/
def nudge (exs : List (ℚ × ℚ)) (loc rc plen : ℚ) : ℚ :=
  match exs with
  | [] => loc
  | ex :: rest =>
    if ex.1 < loc ∧ loc < ex.2 then
      let back := -(loc - ex.1 + 2 * rc / plen)
      let forw := ex.2 - loc + 2 * rc / plen
      if |forw| ≤ |back| then loc + forw else loc + back
    else nudge rest loc rc plen

/-- XZLMapper._get_bounds over the flattened endpoint list: starting from
(lb, ub) = (0, 1), scan the endpoints; the first endpoint above l_values
becomes ub (stop), every endpoint at or below it becomes the running lb. -/
def get_bounds_aux (l : ℚ) : List ℚ → ℚ → ℚ × ℚ
  | [], lb => (lb, 1)
  | ex :: rest, lb => if l < ex then (lb, ex) else get_bounds_aux l rest ex

/-- XZLMapper._get_bounds: bounds for one coil from the exclusion store. -/
def get_bounds (exs : List (ℚ × ℚ)) (l : ℚ) : ℚ × ℚ :=
  get_bounds_aux l (exs.flatMap (fun p => [p.1, p.2])) 0

/-- The inner fill of XZLMapper._segment_tracks: for k = 0..n-1 write
lb_new[i+k] = upper - (k+1) delta and ub_new[i+k] = upper - k delta. -/
def fill_slices (upper delta : ℚ) (i : ℕ) : ℕ → ℕ → List ℚ → List ℚ →
    Except String (List ℚ × List ℚ)
  | _, 0, lbN, ubN => .ok (lbN, ubN)
  | k, m + 1, lbN, ubN =>
    match setLE lbN (i + k) (upper - ((k : ℚ) + 1) * delta) with
    | .error e => .error e
    | .ok lbN1 =>
      match setLE ubN (i + k) (upper - (k : ℚ) * delta) with
      | .error e => .error e
      | .ok ubN1 => fill_slices upper delta i (k + 1) m lbN1 ubN1

/-- The enumerate loop of XZLMapper._segment_tracks, indexed by the current
position i and the remaining iteration count.  flag and last_n reproduce
the Python control state (last_n starts at -1, an impossible index). -/
def seg_loop (lb ub : List ℚ) : ℕ → ℕ → Bool → ℤ → List ℚ → List ℚ →
    Except String (List ℚ × List ℚ)
  | _, 0, _, _, lbN, ubN => .ok (lbN, ubN)
  | i, r + 1, flag, lastN, lbN, ubN =>
    if lb.count (lb.getD i 0) = 1 then
      match setLE lbN i (lb.getD i 0) with
      | .error e => .error e
      | .ok lbN1 =>
        match setLE ubN i (ub.getD i 0) with
        | .error e => .error e
        | .ok ubN1 => seg_loop lb ub (i + 1) r false lastN lbN1 ubN1
    else if (if (i : ℤ) = lastN then false else flag) = false then
      match fill_slices (ub.getD i 0)
          ((ub.getD i 0 - lb.getD i 0) / (lb.count (lb.getD i 0) : ℚ)) i 0
          (lb.count (lb.getD i 0)) lbN ubN with
      | .error e => .error e
      | .ok (lbN1, ubN1) =>
        seg_loop lb ub (i + 1) r true ((i : ℤ) + (lb.count (lb.getD i 0) : ℤ)) lbN1 ubN1
    else
      seg_loop lb ub (i + 1) r (if (i : ℤ) = lastN then false else flag) lastN lbN ubN

/-- XZLMapper._segment_tracks: lb_new and ub_new start as zero vectors of
the input lengths; the zip runs over min(len lb, len ub) entries. -/
def segment_tracks (lb ub : List ℚ) : Except String (List ℚ × List ℚ) :=
  seg_loop lb ub 0 (min lb.length ub.length) false (-1)
    (List.replicate lb.length 0) (List.replicate ub.length 0)

/-- The per-coil loop of XZLMapper.get_Lmap writing l_values, lb and ub at
index i for each mapped PF coil.  With a registered but empty exclusion
list the Python loop body never binds d_l and the first coil raises
NameError. -/
def pf_loop (m : MapperM) : List CoilM → ℕ → List ℚ → List ℚ → List ℚ →
    Except String (List ℚ × List ℚ × List ℚ)
  | [], _, lv, lbv, ubv => .ok (lv, lbv, ubv)
  | c :: rest, i, lv, lbv, ubv =>
    let loc := m.xz_to_L c.x c.z
    match m.exclusions with
    | none =>
      match setLE lv i loc with
      | .error e => .error e
      | .ok lv1 =>
        match setLE lbv i 0 with
        | .error e => .error e
        | .ok lbv1 =>
          match setLE ubv i 1 with
          | .error e => .error e
          | .ok ubv1 => pf_loop m rest (i + 1) lv1 lbv1 ubv1
    | some [] => .error "NameError: d_l referenced before assignment"
    | some exs =>
      let lnew := nudge exs loc c.rc m.plen
      let bnds := get_bounds exs lnew
      match setLE lv i lnew with
      | .error e => .error e
      | .ok lv1 =>
        match setLE lbv i bnds.1 with
        | .error e => .error e
        | .ok lbv1 =>
          match setLE ubv i bnds.2 with
          | .error e => .error e
          | .ok ubv1 => pf_loop m rest (i + 1) lv1 lbv1 ubv1

/-- XZLMapper.get_Lmap: initial L vector with lower and upper bounds.
The coilset is given as its coil records in dictionary order; mapping is
the list of PF coil names on the track.  After the per-coil loop the
bounds are segmented and l_values clipped into them; if CS mapping is
enabled the CS coil centres are converted by z_to_L and appended with
[0, 1] bounds (the CS module count of the coilset collaborator equals the
number of its CS coils). -/
def get_Lmap (m : MapperM) (coils : List CoilM) (mapping : List String) :
    Except String (List ℚ × List ℚ × List ℚ) :=
  let pf_coils := coils.filter (fun c => mapping.contains c.name)
  match pf_loop m pf_coils 0 (List.replicate mapping.length 0)
      (List.replicate mapping.length 0) (List.replicate mapping.length 0) with
  | .error e => .error e
  | .ok (lv, lb1, ub1) =>
    match segment_tracks lb1 ub1 with
    | .error e => .error e
    | .ok (lb2, ub2) =>
      let lvals := zipWith3 clipQ lv lb2 ub2
      if m.flag_CS then
        let zs := sortDesc ((coils.filter (fun c => c.ctype = "CS")).map (fun c => c.z))
        match z_to_L m.z_min m.z_max m.gap zs with
        | .error e => .error e
        | .ok l_cs =>
          .ok (lvals ++ l_cs, lb2 ++ List.replicate zs.length 0,
               ub2 ++ List.replicate zs.length 1)
      else
        .ok (lvals, lb2, ub2)

/-! ## RegionInterpolator: convex 2-D region mapping -/

/-- Modelled from the spec: a convex region in the x-z plane.  The external
geometry collaborator is abstracted by its z-extent [z_min, z_max] and, for
each height z, the x-interval [xlo z, xhi z] in which the horizontal line
at z meets the region (slices of a convex polygon are intervals; a
degenerate slice xlo z = xhi z is a single boundary vertex). -/
structure RegionM where
  z_min : ℚ
  z_max : ℚ
  xlo : ℚ → ℚ
  xhi : ℚ → ℚ

/-- A geometric plane given by three points, as constructed by
Plane([..], [..], [..]) in the source. -/
structure PlaneM where
  a : ℚ × ℚ × ℚ
  b : ℚ × ℚ × ℚ
  c : ℚ × ℚ × ℚ

/-- The common z-height of a plane's three defining points, when they share
one (every plane built by RegionInterpolator is of this form). -/
def plane_z (p : PlaneM) : Option ℚ :=
  if p.a.2.2 = p.b.2.2 ∧ p.b.2.2 = p.c.2.2 then some p.a.2.2 else none

/-- Modelled from the spec: loop_plane_intersect (external geometry
collaborator) returns the 0, 1 or 2 crossing points of the region boundary
with a horizontal plane, or None when there is no intersection.  Only the
x-values of the crossings are recorded (the callers read index [0] of each
point). -/
def horiz_intersect (R : RegionM) (z : ℚ) : Option (List ℚ) :=
  if z < R.z_min ∨ R.z_max < z then none
  else if R.xlo z = R.xhi z then some [R.xlo z]
  else some [R.xlo z, R.xhi z]

/-- loop_plane_intersect on the planes used by RegionInterpolator: all of
them have their three points at a common height. -/
def loop_plane_intersect (R : RegionM) (p : PlaneM) : Option (List ℚ) :=
  match plane_z p with
  | some z => horiz_intersect R z
  | none => none

/-- RegionInterpolator.to_xz: z = z_min + (z_max - z_min) l_1; the region
is cut by the plane through (0,0,z), (1,0,z), (0,1,z); one crossing gives
x directly, two give x = x_min + (x_max - x_min) l_0; any other count is a
GeometryError (len(None) in Python is a TypeError). -/
def to_xz (R : RegionM) (l_values : ℚ × ℚ) : Except String (ℚ × ℚ) :=
  let z := R.z_min + (R.z_max - R.z_min) * l_values.2
  match loop_plane_intersect R ⟨(0, 0, z), (1, 0, z), (0, 1, z)⟩ with
  | none => .error "TypeError: object of type NoneType has no len"
  | some [x0] => .ok (x0, z)
  | some [x0, x1] =>
    .ok (min x0 x1 + (max x0 x1 - min x0 x1) * l_values.1, z)
  | some _ => .error "Region must be a Convex Hull"

/-- The length-dispatch core of RegionInterpolator._intersect_filter on a
non-None intersection list: two crossings clip (x - x_min)/(x_max - x_min)
into [0,1]; one crossing sets l_0 = float(l_1 == 1.0); any other count is
a GeometryError. -/
def intersect_filter_core (x l_1 : ℚ) : List ℚ → Except String (ℚ × ℚ)
  | [x0, x1] =>
    .ok (clipQ ((x - min x0 x1) / (max x0 x1 - min x0 x1)) 0 1, l_1)
  | [_] => .ok ((if l_1 = 1 then 1 else 0), l_1)
  | _ => .error "Region must be a Convex Hull"

/-- The fallback plane of RegionInterpolator._intersect_filter:
Plane([x, 0, 0], [x + 1, 0, 0], [x, 1, 0]), built from x and the unit
x-offset, with all three points at height 0. -/
def retry_plane (x : ℚ) : PlaneM := ⟨(x, 0, 0), (x + 1, 0, 0), (x, 1, 0)⟩

/-- RegionInterpolator._intersect_filter: a None intersection recomputes
the intersection with the fallback plane and re-dispatches, substituting
the one-element list [False] when even the retry finds nothing (the
one-crossing branch never reads the crossing value, so the placeholder is
modelled by a dummy rational). -/
def intersect_filter (R : RegionM) (x l_1 : ℚ) :
    Option (List ℚ) → Except String (ℚ × ℚ)
  | some xs => intersect_filter_core x l_1 xs
  | none =>
    match loop_plane_intersect R (retry_plane x) with
    | none => intersect_filter_core x l_1 [0]
    | some xs => intersect_filter_core x l_1 xs

/-- RegionInterpolator.to_L: l_1 is the clipped normalised z; the region is
cut by the plane through (x,0,z), (x+1,0,z), (x,1,z) and the result is
filtered by _intersect_filter. -/
def to_L (R : RegionM) (x z : ℚ) : Except String (ℚ × ℚ) :=
  let l_1 := clipQ ((z - R.z_min) / (R.z_max - R.z_min)) 0 1
  intersect_filter R x l_1
    (loop_plane_intersect R ⟨(x, 0, z), (x + 1, 0, z), (x, 1, z)⟩)

/-- bluemira.base.constants.EPS: np.finfo(float).eps, the double-precision
machine epsilon 2^-52, exact as a rational. -/
def EPS : ℚ := 1 / 2 ^ 52

/-- The default relative tolerance of np.allclose. -/
def NP_RTOL : ℚ := 1 / 100000

/-- RegionInterpolator.check_loop_feasibility: np.allclose(hull_volume,
area, atol=EPS) is |hull_volume - area| <= EPS + rtol |area| (modelled
from the spec for the external ConvexHull volume and loop area values);
failure raises GeometryError. -/
def check_loop_feasibility (hull_volume area : ℚ) : Except String Unit :=
  if |hull_volume - area| ≤ EPS + NP_RTOL * |area| then .ok ()
  else .error "Region must be a Convex Hull"

/-- RegionInterpolator.__init__ reduced to its failure behaviour: the
constructor stores the loop and then runs the convex-hull feasibility
check, which is its only way to raise. -/
def region_init (hull_volume area : ℚ) : Except String Unit :=
  check_loop_feasibility hull_volume area

/-! ## General helper lemmas -/

theorem getD_eq_getElem {α : Type} (l : List α) (i : ℕ) (d : α) (h : i < l.length) :
    l.getD i d = l[i] := by
  simp [List.getD_eq_getElem?_getD, List.getElem?_eq_getElem h]

theorem sum_map_two_mul : ∀ l : List ℚ, (l.map (fun v => 2 * v)).sum = 2 * l.sum
  | [] => by simp
  | x :: xs => by simp [sum_map_two_mul xs]; ring

theorem sum_replicate_set (v w : ℚ) : ∀ (n k : ℕ), k < n →
    ((List.replicate n v).set k w).sum = (n : ℚ) * v + (w - v)
  | 0, k, hk => absurd hk (Nat.not_lt_zero k)
  | n + 1, 0, _ => by
    simp [List.replicate_succ, List.sum_replicate, nsmul_eq_mul]; ring
  | n + 1, k + 1, hk => by
    have ih := sum_replicate_set v w n k (Nat.lt_of_succ_lt_succ hk)
    simp [List.replicate_succ, List.set_cons_succ, ih]
    ring

theorem map_dz_zipWith (x tk : ℚ) (s : String) : ∀ (as bs : List ℚ),
    as.length = bs.length →
    (List.zipWith (fun z dz => CoilGen.mk x z tk dz s) as bs).map (fun c => 2 * c.dz) =
      bs.map (fun v => 2 * v)
  | [], [], _ => rfl
  | [], _ :: _, h => by simp at h
  | _ :: _, [], h => by simp at h
  | a :: as, b :: bs, h => by
    simp only [List.zipWith_cons_cons, List.map_cons]
    exact congrArg _ (map_dz_zipWith x tk s as bs (by simpa using h))

/-! ## C10: a lone CS module maps to L = 0.5 -/

/-- C10: for every XZLMapper CS track configuration, z_to_L applied to a
single module centre returns exactly [0.5], independently of the centre
value and of z_min, z_max and the gap: the singleton branch discards the
module's actual vertical position. -/
theorem z_to_L_singleton_half (z_min z_max gap zv : ℚ) :
    z_to_L z_min z_max gap [zv] = .ok [1/2] := rfl

/-! ## C6: demospace_CS degrades for even or small module counts -/

/-- C6: for every n_CS that is even or at most 2, demospace_CS emits the
diagnostic warning (first component true) and returns exactly the
Solenoid that equispace_CS builds with identical arguments; being a total
function it raises nothing. -/
theorem demospace_CS_degrade (csgap x_cs tk_cs z_min z_max : ℚ) (n_CS : ℕ)
    (h : n_CS ≤ 2 ∨ n_CS % 2 = 0) :
    demospace_CS csgap x_cs tk_cs z_min z_max n_CS =
      (true, equispace_CS csgap x_cs tk_cs z_min z_max n_CS) := by
  simp only [demospace_CS, if_pos h]

theorem demospace_CS_degrade_witness :
    demospace_CS (1/10) 1 (1/4) (-2) 2 4 = (true, equispace_CS (1/10) 1 (1/4) (-2) 2 4) :=
  demospace_CS_degrade (1/10) 1 (1/4) (-2) 2 4 (Or.inr rfl)

/-! ## C7: make_coilset with an unknown CS layout keyword -/

/-- C7 counterexample: with n_CS = 0 the solenoid branch of make_coilset
is skipped entirely, so an unknown layout keyword ("JET") raises no error
and the PF coil list is returned unchanged — refuting the claim that the
error occurs regardless of the other construction parameters. -/
theorem make_coilset_no_CS_no_error :
    make_coilset [] 2 1 (1/4) (1/10) 0 "JET" = .ok [] := rfl

/-- C7 amended: for every construction with a non-zero CS module count,
a solenoid-layout keyword that is neither ITER nor DEMO makes
make_coilset raise the configuration ValueError. -/
theorem make_coilset_bad_layout_error (pfCoils : List CoilGen)
    (trackZmax x_cs tk_cs csgap : ℚ) (n_CS : ℕ) (cslayout : String)
    (h1 : cslayout ≠ "ITER") (h2 : cslayout ≠ "DEMO") (h3 : n_CS ≠ 0) :
    make_coilset pfCoils trackZmax x_cs tk_cs csgap n_CS cslayout =
      .error "Elige entre ITER y DEMO. Mas opciones no hay." := by
  simp [make_coilset, h1, h2, h3]

theorem make_coilset_bad_layout_error_witness :
    make_coilset [] 2 1 (1/4) (1/10) 3 "JET" =
      .error "Elige entre ITER y DEMO. Mas opciones no hay." :=
  make_coilset_bad_layout_error [] 2 1 (1/4) (1/10) 3 "JET"
    (by decide) (by decide) (by decide)

/-! ## C8: convexity feasibility gate of RegionInterpolator -/

/-- C8: constructing a RegionInterpolator fails with the GeometryError
exactly when the polygon area differs from its convex hull's area by more
than the np.allclose tolerance EPS + rtol |area|; construction succeeds
exactly when the polygon is (within that tolerance) its own convex hull. -/
theorem region_init_convexity (hull_volume area : ℚ) :
    (¬ |hull_volume - area| ≤ EPS + NP_RTOL * |area| →
      region_init hull_volume area = .error "Region must be a Convex Hull") ∧
    (region_init hull_volume area = .ok () ↔
      |hull_volume - area| ≤ EPS + NP_RTOL * |area|) := by
  refine ⟨fun h => by simp [region_init, check_loop_feasibility, h], ?_, ?_⟩
  · intro h
    by_contra hc
    simp [region_init, check_loop_feasibility, hc] at h
  · intro h
    simp [region_init, check_loop_feasibility, h]

theorem region_init_convexity_witness :
    region_init 1 2 = .error "Region must be a Convex Hull" ∧ region_init 1 1 = .ok () :=
  ⟨(region_init_convexity 1 2).1 (by norm_num [EPS, NP_RTOL]),
   (region_init_convexity 1 1).2.mpr (by norm_num [EPS, NP_RTOL])⟩

/-! ## C4: the exclusion-zone nudge -/

/-- C4 counterexample: a coil at L = 0.45 inside the exclusion (0.25, 0.5)
with rc = 1 on a track of length 100 is moved to 0.52 = upper edge + 2 rc
/ length, not to the claimed upper edge + (rc / 2) / length = 0.505: the
margin in the code is twice the coil radius over the track length, not
half of it. -/
theorem nudge_margin_counterexample :
    nudge [(1/4, 1/2)] (9/20) 1 100 = 13/25 ∧
      nudge [(1/4, 1/2)] (9/20) 1 100 ≠ 1/2 + (1/2) / 100 := by
  have h : nudge [((1 : ℚ)/4, (1 : ℚ)/2)] (9/20) 1 100 = 13/25 := by
    simp only [nudge]
    norm_num [abs_neg, abs_of_nonneg]
  exact ⟨h, by rw [h]; norm_num⟩

/-- C4 amended: a coil whose track coordinate loc lies strictly inside the
first registered exclusion interval containing it is moved to the nearer
of the two interval edges — ties towards the upper edge — plus a margin of
twice the coil radius normalised by the total track length, on the outside
of the interval. -/
theorem nudge_nearest_edge (pre suf : List (ℚ × ℚ)) (ex : ℚ × ℚ) (loc rc plen : ℚ)
    (hpre : ∀ p ∈ pre, ¬(p.1 < loc ∧ loc < p.2))
    (hex1 : ex.1 < loc) (hex2 : loc < ex.2) (hrc : 0 ≤ rc) (hplen : 0 < plen) :
    nudge (pre ++ ex :: suf) loc rc plen =
      if ex.2 - loc ≤ loc - ex.1 then ex.2 + 2 * rc / plen else ex.1 - 2 * rc / plen := by
  induction pre with
  | nil =>
    have hM : 0 ≤ 2 * rc / plen := by positivity
    simp only [List.nil_append, nudge, if_pos (And.intro hex1 hex2)]
    have hb : |(-(loc - ex.1 + 2 * rc / plen))| = loc - ex.1 + 2 * rc / plen := by
      rw [abs_neg, abs_of_nonneg (by linarith)]
    have hf : |ex.2 - loc + 2 * rc / plen| = ex.2 - loc + 2 * rc / plen :=
      abs_of_nonneg (by linarith)
    rw [hf, hb]
    by_cases hc : ex.2 - loc ≤ loc - ex.1
    · rw [if_pos (by linarith), if_pos hc]; ring
    · rw [if_neg (by intro hcon; apply hc; linarith), if_neg hc]; ring
  | cons p pre ih =>
    have hp : ¬(p.1 < loc ∧ loc < p.2) := hpre p (List.mem_cons_self p pre)
    simp only [List.cons_append, nudge, if_neg hp]
    exact ih (fun q hq => hpre q (List.mem_cons_of_mem p hq))

theorem nudge_nearest_edge_witness :
    nudge [((1 : ℚ)/4, (1 : ℚ)/2)] (9/20) 1 100 =
      if (1 : ℚ)/2 - 9/20 ≤ 9/20 - 1/4 then (1 : ℚ)/2 + 2 * 1 / 100
      else (1 : ℚ)/4 - 2 * 1 / 100 :=
  nudge_nearest_edge [] [] (1/4, 1/2) (9/20) 1 100 (by simp) (by norm_num)
    (by norm_num) (by norm_num) (by norm_num)

/-! ## C5: the DEMO-style CS stack -/

theorem demo_heights_len (g zmin zmax : ℚ) (n : ℕ) :
    (demo_heights g zmin zmax n).length = n := by
  simp [demo_heights]

theorem demo_z_cs_len (g zmin zmax : ℚ) (n : ℕ) :
    (demo_z_cs g zmin zmax n).length = n := by
  simp [demo_z_cs]

theorem demo_heights_getElem (g zmin zmax : ℚ) (n i : ℕ)
    (h : i < (demo_heights g zmin zmax n).length) :
    (demo_heights g zmin zmax n)[i] =
      if n / 2 = i then demo_length g zmin zmax n
      else demo_length g zmin zmax n / 2 := by
  unfold demo_heights
  by_cases hc : n / 2 = i
  · rw [if_pos hc]
    subst hc
    exact List.getElem_set_self (by simpa [demo_heights] using h)
  · rw [if_neg hc, List.getElem_set_of_ne hc]
    exact List.getElem_replicate _ _

/-- C5: for odd n_CS greater than 2 (and a proper z-interval), demospace_CS
builds its DEMO stack without degrading: n_CS modules, total full height
(sum of 2 * dz) equal to (z_max - z_min) - (n_CS - 1) * csgap, and the
central module exactly twice the height of every other module. -/
theorem demospace_CS_stack (csgap x_cs tk_cs z_min z_max : ℚ) (n_CS : ℕ)
    (hodd : n_CS % 2 = 1) (hn : 2 < n_CS) (_hz : z_min < z_max) :
    (demospace_CS csgap x_cs tk_cs z_min z_max n_CS).1 = false ∧
    (demospace_CS csgap x_cs tk_cs z_min z_max n_CS).2.coils =
      some (demospaceCoils csgap x_cs tk_cs z_min z_max n_CS) ∧
    (demospaceCoils csgap x_cs tk_cs z_min z_max n_CS).length = n_CS ∧
    (fullHeights (demospaceCoils csgap x_cs tk_cs z_min z_max n_CS)).sum =
      (z_max - z_min) - ((n_CS : ℚ) - 1) * csgap ∧
    ∀ i, i < n_CS → i ≠ n_CS / 2 →
      ((demospaceCoils csgap x_cs tk_cs z_min z_max n_CS).getD (n_CS / 2) coilGen0).dz =
        2 * ((demospaceCoils csgap x_cs tk_cs z_min z_max n_CS).getD i coilGen0).dz := by
  have hgood : ¬(n_CS ≤ 2 ∨ n_CS % 2 = 0) := by omega
  have hcent : n_CS / 2 < n_CS := Nat.div_lt_self (by omega) (by norm_num)
  have hcoils : demospaceCoils csgap x_cs tk_cs z_min z_max n_CS =
      List.zipWith (fun z dz => CoilGen.mk x_cs z tk_cs dz "CS")
        (demo_z_cs csgap z_min z_max n_CS) (demo_heights csgap z_min z_max n_CS) := by
    simp [demospaceCoils, demospace_CS, hgood]
  have hlen : (demospaceCoils csgap x_cs tk_cs z_min z_max n_CS).length = n_CS := by
    rw [hcoils]
    simp [demo_z_cs_len, demo_heights_len]
  refine ⟨by simp [demospace_CS, hgood], by simp [demospaceCoils, demospace_CS, hgood],
    hlen, ?_, ?_⟩
  · rw [hcoils]
    unfold fullHeights
    rw [map_dz_zipWith _ _ _ _ _ (by rw [demo_z_cs_len, demo_heights_len]),
      sum_map_two_mul]
    unfold demo_heights
    rw [sum_replicate_set _ _ _ _ hcent]
    have hne : ((n_CS : ℚ) + 1) ≠ 0 := by positivity
    have : 2 * ((n_CS : ℚ) * (demo_length csgap z_min z_max n_CS / 2) +
        (demo_length csgap z_min z_max n_CS - demo_length csgap z_min z_max n_CS / 2)) =
        ((n_CS : ℚ) + 1) * demo_length csgap z_min z_max n_CS := by ring
    rw [this]
    unfold demo_length
    field_simp
  · intro i hi hienc
    have hi1 : i < (demospaceCoils csgap x_cs tk_cs z_min z_max n_CS).length := by
      rw [hlen]; exact hi
    have hc1 : n_CS / 2 < (demospaceCoils csgap x_cs tk_cs z_min z_max n_CS).length := by
      rw [hlen]; exact hcent
    rw [getD_eq_getElem _ _ _ hc1, getD_eq_getElem _ _ _ hi1]
    simp only [hcoils, List.getElem_zipWith]
    rw [demo_heights_getElem _ _ _ _ _ (by rw [demo_heights_len]; exact hcent),
      demo_heights_getElem _ _ _ _ _ (by rw [demo_heights_len]; exact hi)]
    rw [if_pos rfl, if_neg (fun hcon => hienc hcon.symm)]
    ring

theorem demospace_CS_stack_witness :
    (demospace_CS (1/10) 1 (1/4) (-2) 2 5).1 = false ∧
    (fullHeights (demospaceCoils (1/10) 1 (1/4) (-2) 2 5)).sum =
      (2 - (-2) : ℚ) - (((5 : ℕ) : ℚ) - 1) * (1/10) := by
  have h := demospace_CS_stack (1/10) 1 (1/4) (-2) 2 5 rfl (by norm_num) (by norm_num)
  exact ⟨h.1, h.2.2.2.1⟩

/-! ## C1: region round trip -/

/-- C1: for any (L0, L1) in the unit square whose image point is strictly
inside the region horizontally (the slice at the corresponding height is a
proper interval), converting to physical coordinates with to_xz and back
with to_L is exactly the identity. -/
theorem to_xz_to_L_round_trip (R : RegionM) (l_0 l_1 : ℚ)
    (h00 : 0 ≤ l_0) (h01 : l_0 ≤ 1) (h10 : 0 ≤ l_1) (h11 : l_1 ≤ 1)
    (hzz : R.z_min < R.z_max)
    (hx : R.xlo (R.z_min + (R.z_max - R.z_min) * l_1) <
      R.xhi (R.z_min + (R.z_max - R.z_min) * l_1)) :
    (to_xz R (l_0, l_1)).bind (fun p => to_L R p.1 p.2) = .ok (l_0, l_1) := by
  set z := R.z_min + (R.z_max - R.z_min) * l_1 with hzdef
  have hΔ : (0 : ℚ) < R.z_max - R.z_min := by linarith
  have hrange : ¬(z < R.z_min ∨ R.z_max < z) := by
    push_neg
    constructor
    · nlinarith
    · nlinarith
  have hxe : ¬R.xlo z = R.xhi z := ne_of_lt hx
  have hmin : min (R.xlo z) (R.xhi z) = R.xlo z := min_eq_left (le_of_lt hx)
  have hmax : max (R.xlo z) (R.xhi z) = R.xhi z := max_eq_right (le_of_lt hx)
  set x := R.xlo z + (R.xhi z - R.xlo z) * l_0 with hxdef
  have hplane1 : loop_plane_intersect R ⟨(0, 0, z), (1, 0, z), (0, 1, z)⟩ =
      some [R.xlo z, R.xhi z] := by
    simp [loop_plane_intersect, plane_z, horiz_intersect, hrange, hxe]
  have hplane2 : loop_plane_intersect R ⟨(x, 0, z), (x + 1, 0, z), (x, 1, z)⟩ =
      some [R.xlo z, R.xhi z] := by
    simp [loop_plane_intersect, plane_z, horiz_intersect, hrange, hxe]
  have hto : to_xz R (l_0, l_1) = .ok (x, z) := by
    simp only [to_xz, hplane1]
    rw [hmin, hmax]
  rw [hto]
  show to_L R x z = .ok (l_0, l_1)
  have hl1 : clipQ ((z - R.z_min) / (R.z_max - R.z_min)) 0 1 = l_1 := by
    have heq : (z - R.z_min) / (R.z_max - R.z_min) = l_1 := by
      rw [hzdef]
      field_simp
    rw [heq]
    unfold clipQ
    rw [max_eq_left h10, min_eq_left h11]
  have hne : R.xhi z - R.xlo z ≠ 0 := sub_ne_zero.mpr (ne_of_gt hx)
  have hl0 : clipQ ((x - R.xlo z) / (R.xhi z - R.xlo z)) 0 1 = l_0 := by
    have heq : (x - R.xlo z) / (R.xhi z - R.xlo z) = l_0 := by
      rw [hxdef]
      field_simp
    rw [heq]
    unfold clipQ
    rw [max_eq_left h00, min_eq_left h01]
  unfold to_L
  rw [hplane2, hl1]
  show intersect_filter_core x l_1 [R.xlo z, R.xhi z] = .ok (l_0, l_1)
  rw [show intersect_filter_core x l_1 [R.xlo z, R.xhi z] =
    Except.ok (clipQ ((x - min (R.xlo z) (R.xhi z)) /
      (max (R.xlo z) (R.xhi z) - min (R.xlo z) (R.xhi z))) 0 1, l_1) from rfl]
  rw [hmin, hmax, hl0]

/-- A concrete unit-square region (z from 0 to 1, x-slice [0, 1] at every
height), used as an evaluation witness. -/
def unitSquareRegion : RegionM := ⟨0, 1, fun _ => 0, fun _ => 1⟩

theorem to_xz_to_L_round_trip_witness :
    (to_xz unitSquareRegion (1/2, 1/2)).bind
      (fun p => to_L unitSquareRegion p.1 p.2) = .ok (1/2, 1/2) :=
  to_xz_to_L_round_trip unitSquareRegion (1/2) (1/2) (by norm_num) (by norm_num)
    (by norm_num) (by norm_num) (by norm_num [unitSquareRegion])
    (by norm_num [unitSquareRegion])

/-! ## C9: the single-intersection branch of to_L -/

/-- A concrete region whose single-point degeneracy is at the bottom:
z from 0 to 2, slice [-z, z] at height z (apex vertex at z = 0). -/
def apexRegion : RegionM := ⟨0, 2, fun z => -z, fun z => z⟩

/-- A concrete region whose single-point degeneracy is at the top:
z from 0 to 2, slice [z - 2, 2 - z] at height z (apex vertex at z = 2). -/
def topApexRegion : RegionM := ⟨0, 2, fun z => z - 2, fun z => 2 - z⟩

/-- C9 counterexample: on the bottom-apex region, to_L at (0, 5) takes the
retry path (the slice at z = 5 misses the region) and its single remaining
intersection is the bottom vertex at z = 0, yet L0 = 1; to_L at (0, 0)
meets the very same bottom vertex directly and L0 = 0.  The same single
remaining intersection thus yields both L0 values, so L0 is not set
according to which end of the region the intersection corresponds to — it
is set by the clamped l_1 alone. -/
theorem to_L_single_intersection_counterexample :
    to_L apexRegion 0 5 = .ok (1, 1) ∧ to_L apexRegion 0 0 = .ok (0, 0) := by
  constructor
  · norm_num [to_L, intersect_filter, intersect_filter_core, loop_plane_intersect,
      plane_z, horiz_intersect, retry_plane, clipQ, apexRegion]
  · norm_num [to_L, intersect_filter, intersect_filter_core, loop_plane_intersect,
      plane_z, horiz_intersect, retry_plane, clipQ, apexRegion]

/-- C9 amended: when the plane intersection yields nothing,
_intersect_filter retries with the fallback plane built from x and the
unit x-offset at height zero and dispatches on its result (a still-empty
retry lands in the one-crossing branch via the placeholder); in every
one-crossing case L0 is set to 1 exactly when the clamped normalised
vertical coordinate l_1 equals 1 and to 0 otherwise.  This matches the
region end for direct single intersections: at the top vertex of a proper
region to_L returns (1, 1) and at the bottom vertex (0, 0). -/
theorem intersect_filter_retry :
    (∀ (R : RegionM) (x l_1 : ℚ), loop_plane_intersect R (retry_plane x) = none →
      intersect_filter R x l_1 none = .ok ((if l_1 = 1 then 1 else 0), l_1)) ∧
    (∀ (R : RegionM) (x l_1 : ℚ) (xs : List ℚ),
      loop_plane_intersect R (retry_plane x) = some xs →
      intersect_filter R x l_1 none = intersect_filter_core x l_1 xs) ∧
    (∀ (R : RegionM) (x : ℚ), R.z_min < R.z_max → R.xlo R.z_max = R.xhi R.z_max →
      to_L R x R.z_max = .ok (1, 1)) ∧
    (∀ (R : RegionM) (x : ℚ), R.z_min < R.z_max → R.xlo R.z_min = R.xhi R.z_min →
      to_L R x R.z_min = .ok (0, 0)) := by
  refine ⟨?_, ?_, ?_, ?_⟩
  · intro R x l_1 h
    simp [intersect_filter, h, intersect_filter_core]
  · intro R x l_1 xs h
    simp [intersect_filter, h]
  · intro R x hzz heq
    have hΔ : R.z_max - R.z_min ≠ 0 := sub_ne_zero.mpr (ne_of_gt hzz)
    have hrange : ¬(R.z_max < R.z_min ∨ R.z_max < R.z_max) := by
      push_neg
      exact ⟨le_of_lt hzz, le_refl _⟩
    have hplane : loop_plane_intersect R ⟨(x, 0, R.z_max), (x + 1, 0, R.z_max),
        (x, 1, R.z_max)⟩ = some [R.xlo R.z_max] := by
      simp [loop_plane_intersect, plane_z, horiz_intersect, hrange, heq, hzz.le]
    have hl1 : clipQ ((R.z_max - R.z_min) / (R.z_max - R.z_min)) 0 1 = 1 := by
      rw [div_self hΔ]
      unfold clipQ
      rw [max_eq_left (by norm_num), min_eq_left (by norm_num)]
    unfold to_L
    rw [hplane, hl1]
    simp [intersect_filter, intersect_filter_core]
  · intro R x hzz heq
    have hrange : ¬(R.z_min < R.z_min ∨ R.z_max < R.z_min) := by
      push_neg
      exact ⟨le_refl _, le_of_lt hzz⟩
    have hplane : loop_plane_intersect R ⟨(x, 0, R.z_min), (x + 1, 0, R.z_min),
        (x, 1, R.z_min)⟩ = some [R.xlo R.z_min] := by
      simp [loop_plane_intersect, plane_z, horiz_intersect, hrange, heq, hzz.le]
    have hl1 : clipQ ((R.z_min - R.z_min) / (R.z_max - R.z_min)) 0 1 = 0 := by
      rw [sub_self, zero_div]
      unfold clipQ
      rw [max_self, min_eq_left (by norm_num)]
    unfold to_L
    rw [hplane, hl1]
    simp [intersect_filter, intersect_filter_core]

theorem intersect_filter_retry_witness :
    to_L topApexRegion 7 2 = .ok (1, 1) ∧ to_L apexRegion 3 0 = .ok (0, 0) :=
  ⟨intersect_filter_retry.2.2.1 topApexRegion 7 (by norm_num [topApexRegion])
      (by norm_num [topApexRegion]),
   intersect_filter_retry.2.2.2 apexRegion 3 (by norm_num [apexRegion])
      (by norm_num [apexRegion])⟩

/-! ## Index and write helper lemmas for the segmentation loops -/

theorem getD_replicate_lt (c d : ℚ) (n j : ℕ) (h : j < n) :
    (List.replicate n c).getD j d = c := by
  rw [getD_eq_getElem _ _ _ (by simpa using h)]
  exact List.getElem_replicate _ _

theorem getD_replicate_self (c : ℚ) : ∀ (n j : ℕ), (List.replicate n c).getD j c = c
  | 0, _ => rfl
  | _ + 1, 0 => rfl
  | n + 1, j + 1 => by
    simp only [List.replicate_succ, List.getD_cons_succ]
    exact getD_replicate_self c n j

theorem setLE_ok {l l' : List ℚ} {i : ℕ} {v : ℚ} (h : setLE l i v = .ok l') :
    i < l.length ∧ l' = l.set i v := by
  unfold setLE at h
  split at h
  · refine ⟨by assumption, ?_⟩
    injection h with h
    exact h.symm
  · cases h

theorem setLE_is_ok (l : List ℚ) (i : ℕ) (v : ℚ) (h : i < l.length) :
    setLE l i v = .ok (l.set i v) := by
  unfold setLE
  rw [if_pos h]

theorem getD_set_self (l : List ℚ) (i : ℕ) (v : ℚ) (h : i < l.length) :
    (l.set i v).getD i 0 = v := by
  rw [getD_eq_getElem _ _ _ (by simpa using h)]
  exact List.getElem_set_self (by simpa using h)

theorem getD_set_ne (l : List ℚ) (i j : ℕ) (v : ℚ) (hne : i ≠ j) :
    (l.set i v).getD j 0 = l.getD j 0 := by
  by_cases hj : j < l.length
  · rw [getD_eq_getElem _ _ _ (by simpa using hj), getD_eq_getElem _ _ _ hj]
    exact List.getElem_set_ne hne _
  · rw [List.getD_eq_default _ _ (by simpa using le_of_not_lt hj),
      List.getD_eq_default _ _ (le_of_not_lt hj)]

theorem list_ext_getD (l1 l2 : List ℚ) (hlen : l1.length = l2.length)
    (h : ∀ j, j < l1.length → l1.getD j 0 = l2.getD j 0) : l1 = l2 := by
  apply List.ext_getElem hlen
  intro i h1 h2
  have hh := h i h1
  rwa [getD_eq_getElem _ _ _ h1, getD_eq_getElem _ _ _ h2] at hh

theorem getD_range_map (f : ℕ → ℚ) (n j : ℕ) (h : j < n) :
    ((List.range n).map f).getD j 0 = f j := by
  rw [getD_eq_getElem _ _ _ (by simpa using h)]
  simp [List.getElem_map]

/-! ## Computation of _segment_tracks on a shared collapsed bound -/

/-- The inner fill of _segment_tracks, fully described: it writes the
descending slice formulas into positions i+k .. i+k+m-1 and leaves all
other entries untouched. -/
theorem fill_slices_spec (u δ : ℚ) (i : ℕ) : ∀ (m k : ℕ) (lbN ubN : List ℚ),
    i + k + m ≤ lbN.length → i + k + m ≤ ubN.length →
    ∃ lbR ubR, fill_slices u δ i k m lbN ubN = .ok (lbR, ubR) ∧
      lbR.length = lbN.length ∧ ubR.length = ubN.length ∧
      (∀ j, j < i + k ∨ i + k + m ≤ j →
        lbR.getD j 0 = lbN.getD j 0 ∧ ubR.getD j 0 = ubN.getD j 0) ∧
      (∀ t, t < m →
        lbR.getD (i + k + t) 0 = u - (((k + t : ℕ) : ℚ) + 1) * δ ∧
        ubR.getD (i + k + t) 0 = u - ((k + t : ℕ) : ℚ) * δ)
  | 0, k, lbN, ubN, _, _ =>
    ⟨lbN, ubN, rfl, rfl, rfl, fun _ _ => ⟨rfl, rfl⟩, fun t ht => absurd ht (by omega)⟩
  | m + 1, k, lbN, ubN, hlb, hub => by
    have hklb : i + k < lbN.length := by omega
    have hkub : i + k < ubN.length := by omega
    have h1 := setLE_is_ok lbN (i + k) (u - ((k : ℚ) + 1) * δ) hklb
    have h2 := setLE_is_ok ubN (i + k) (u - (k : ℚ) * δ) hkub
    obtain ⟨lbR, ubR, hfill, hlenL, hlenU, huntouched, hwritten⟩ :=
      fill_slices_spec u δ i m (k + 1)
        (lbN.set (i + k) (u - ((k : ℚ) + 1) * δ))
        (ubN.set (i + k) (u - (k : ℚ) * δ))
        (by simpa using by omega) (by simpa using by omega)
    refine ⟨lbR, ubR, ?_, by simpa using hlenL, by simpa using hlenU, ?_, ?_⟩
    · show fill_slices u δ i k (m + 1) lbN ubN = .ok (lbR, ubR)
      unfold fill_slices
      rw [h1, h2]
      exact hfill
    · intro j hj
      have hj1 : j < i + (k + 1) ∨ i + (k + 1) + m ≤ j := by omega
      have hne : i + k ≠ j := by omega
      obtain ⟨e1, e2⟩ := huntouched j hj1
      rw [e1, e2, getD_set_ne _ _ _ _ hne, getD_set_ne _ _ _ _ hne]
      exact ⟨rfl, rfl⟩
    · intro t ht
      match t, ht with
      | 0, _ =>
        have hj1 : i + k + 0 < i + (k + 1) ∨ i + (k + 1) + m ≤ i + k + 0 := by omega
        obtain ⟨e1, e2⟩ := huntouched (i + k + 0) hj1
        rw [e1, e2]
        constructor
        · rw [show i + k + 0 = i + k from rfl, getD_set_self _ _ _ hklb]
          norm_num
        · rw [show i + k + 0 = i + k from rfl, getD_set_self _ _ _ hkub]
          norm_num
      | s + 1, hs =>
        have hs' : s < m := by omega
        obtain ⟨e1, e2⟩ := hwritten s hs'
        constructor
        · rw [show i + k + (s + 1) = i + (k + 1) + s from by omega, e1]
          congr 2
          push_cast
          ring
        · rw [show i + k + (s + 1) = i + (k + 1) + s from by omega, e2]
          congr 2
          push_cast
          ring

/-- After a segmentation fill, the loop only skips over the remaining
indices of the duplicate group: every later iteration either resets
nothing or continues, leaving the output arrays unchanged, as long as each
visited entry still has a duplicated lower bound and is not the reset
index. -/
theorem seg_loop_continue (lb ub : List ℚ) : ∀ (r i : ℕ) (lastN : ℤ) (lbN ubN : List ℚ),
    (∀ t, t < r → lb.count (lb.getD (i + t) 0) ≠ 1 ∧ ((i + t : ℕ) : ℤ) ≠ lastN) →
    seg_loop lb ub i r true lastN lbN ubN = .ok (lbN, ubN)
  | 0, _, _, _, _, _ => rfl
  | r + 1, i, lastN, lbN, ubN, h => by
    have h0 := h 0 (by omega)
    rw [show i + 0 = i from rfl] at h0
    show seg_loop lb ub i (r + 1) true lastN lbN ubN = .ok (lbN, ubN)
    unfold seg_loop
    rw [if_neg h0.1, if_neg h0.2]
    rw [if_neg (by simp)]
    exact seg_loop_continue lb ub r (i + 1) lastN lbN ubN
      (fun t ht => by
        have := h (t + 1) (by omega)
        rwa [show i + (t + 1) = i + 1 + t from by omega] at this)

/-- The lower ends of the n equal sub-slices that _segment_tracks carves
out of a shared bound [a, b]: entry k is b - (k+1) (b-a)/n. -/
def slice_lb (n : ℕ) (a b : ℚ) : List ℚ :=
  (List.range n).map (fun k : ℕ => b - ((k : ℚ) + 1) * ((b - a) / (n : ℚ)))

/-- The upper ends of the n equal sub-slices: entry k is b - k (b-a)/n. -/
def slice_ub (n : ℕ) (a b : ℚ) : List ℚ :=
  (List.range n).map (fun k : ℕ => b - (k : ℚ) * ((b - a) / (n : ℚ)))

/-- C3: when n coils share the identical bound [a, b] (all lower bounds
equal, hence one duplicate group), _segment_tracks succeeds and replaces
the bounds by the n sub-slices of width (b-a)/n: each sub-interval has
exactly that width, consecutive sub-intervals abut (the lower end of slice
k is the upper end of slice k+1 — the slices are handed out from the top
down, in sorted descending order), the first upper end is b and the last
lower end is a, so the slices partition [a, b] without overlap. -/
theorem segment_tracks_equal_slices (n : ℕ) (a b : ℚ) (hn : 1 ≤ n) (hab : a ≤ b) :
    segment_tracks (List.replicate n a) (List.replicate n b) =
      .ok (slice_lb n a b, slice_ub n a b) ∧
    (∀ k, k < n →
      (slice_ub n a b).getD k 0 - (slice_lb n a b).getD k 0 = (b - a) / (n : ℚ)) ∧
    (∀ k, k + 1 < n →
      (slice_ub n a b).getD (k + 1) 0 = (slice_lb n a b).getD k 0) ∧
    (∀ k, k + 1 < n →
      (slice_lb n a b).getD (k + 1) 0 ≤ (slice_lb n a b).getD k 0) ∧
    (slice_ub n a b).getD 0 0 = b ∧
    (slice_lb n a b).getD (n - 1) 0 = a := by
  have hδ : 0 ≤ (b - a) / (n : ℚ) := div_nonneg (by linarith) (by positivity)
  have hne : ((n : ℚ)) ≠ 0 := by positivity
  refine ⟨?_, ?_, ?_, ?_, ?_, ?_⟩
  · -- the computation of _segment_tracks itself
    rcases Nat.lt_or_ge n 2 with h2 | h2
    · -- n = 1
      have hn1 : n = 1 := by omega
      subst hn1
      have hseg : segment_tracks (List.replicate 1 a) (List.replicate 1 b) =
          .ok ([a], [b]) := by
        simp [segment_tracks, seg_loop, setLE]
      rw [hseg]
      have hr1 : List.range 1 = [0] := rfl
      have hlb : slice_lb 1 a b = [a] := by
        simp only [slice_lb, hr1, List.map_cons, List.map_nil]
        congr 1
        push_cast
        ring_nf
      have hub : slice_ub 1 a b = [b] := by
        simp only [slice_ub, hr1, List.map_cons, List.map_nil]
        congr 1
        push_cast
        ring_nf
      rw [hlb, hub]
    · -- n ≥ 2
      obtain ⟨m, rfl⟩ : ∃ m, n = m + 2 := ⟨n - 2, by omega⟩
      obtain ⟨lbR, ubR, hfill, hlenL, hlenU, _, hwritten⟩ :=
        fill_slices_spec b ((b - a) / ((m + 2 : ℕ) : ℚ)) 0 (m + 2) 0
          (List.replicate (m + 2) (0 : ℚ)) (List.replicate (m + 2) (0 : ℚ))
          (by simp) (by simp)
      have hlow : (List.replicate (m + 2) a).getD 0 0 = a :=
        getD_replicate_lt _ _ _ _ (by omega)
      have hup : (List.replicate (m + 2) b).getD 0 0 = b :=
        getD_replicate_lt _ _ _ _ (by omega)
      have hcount : List.count a (List.replicate (m + 2) a) = m + 2 :=
        List.count_replicate_self _ _
      have hcont : seg_loop (List.replicate (m + 2) a) (List.replicate (m + 2) b)
          1 (m + 1) true ((0 : ℤ) + ((m + 2 : ℕ) : ℤ)) lbR ubR = .ok (lbR, ubR) := by
        apply seg_loop_continue
        intro t ht
        constructor
        · rw [getD_replicate_lt _ _ _ _ (by omega), List.count_replicate_self]
          omega
        · push_cast
          omega
      have hseg : segment_tracks (List.replicate (m + 2) a) (List.replicate (m + 2) b) =
          .ok (lbR, ubR) := by
        unfold segment_tracks
        simp only [List.length_replicate, Nat.min_self]
        show seg_loop _ _ 0 (m + 1 + 1) false (-1) _ _ = _
        unfold seg_loop
        rw [hlow, hup, hcount]
        rw [if_neg (by omega : ¬(m + 2 = 1))]
        rw [if_neg (by omega : ¬((0 : ℕ) : ℤ) = (-1 : ℤ))]
        rw [if_pos rfl]
        rw [hfill]
        exact hcont
      rw [hseg]
      have hlbeq : lbR = slice_lb (m + 2) a b := by
        apply list_ext_getD
        · rw [hlenL]
          simp [slice_lb]
        · intro j hj
          have hj2 : j < m + 2 := by
            rw [hlenL, List.length_replicate] at hj
            exact hj
          have hw := (hwritten j hj2).1
          rw [show (0 : ℕ) + 0 + j = j from by omega] at hw
          rw [hw, slice_lb, getD_range_map _ _ _ hj2]
      have hubeq : ubR = slice_ub (m + 2) a b := by
        apply list_ext_getD
        · rw [hlenU]
          simp [slice_ub]
        · intro j hj
          have hj2 : j < m + 2 := by
            rw [hlenU, List.length_replicate] at hj
            exact hj
          have hw := (hwritten j hj2).2
          rw [show (0 : ℕ) + 0 + j = j from by omega] at hw
          rw [hw, slice_ub, getD_range_map _ _ _ hj2]
      rw [hlbeq, hubeq]
  · intro k hk
    rw [slice_lb, slice_ub, getD_range_map _ _ _ hk, getD_range_map _ _ _ hk]
    ring
  · intro k hk
    rw [slice_lb, slice_ub, getD_range_map _ _ _ hk, getD_range_map _ _ _ (by omega)]
    push_cast
    ring
  · intro k hk
    rw [slice_lb, getD_range_map _ _ _ hk, getD_range_map _ _ _ (by omega)]
    push_cast
    nlinarith [hδ]
  · rw [slice_ub, getD_range_map _ _ _ (by omega)]
    norm_num
  · rw [slice_lb, getD_range_map _ _ _ (by omega)]
    rw [Nat.cast_sub hn]
    push_cast
    field_simp

theorem segment_tracks_equal_slices_witness :
    segment_tracks (List.replicate 3 (1/5 : ℚ)) (List.replicate 3 (4/5 : ℚ)) =
      .ok (slice_lb 3 (1/5) (4/5), slice_ub 3 (1/5) (4/5)) ∧
    (slice_ub 3 (1/5 : ℚ) (4/5)).getD 0 0 = 4/5 := by
  have h := segment_tracks_equal_slices 3 (1/5) (4/5) (by omega) (by norm_num)
  exact ⟨h.1, h.2.2.2.2.1⟩

/-! ## Bound-ordering invariants through the segmentation loops -/

/-- Writing an ordered pair of values at the same index of two elementwise
ordered equal-length vectors keeps them elementwise ordered. -/
theorem pairs_set_set (lbN ubN : List ℚ) (hlen : lbN.length = ubN.length)
    (hp : ∀ j, lbN.getD j 0 ≤ ubN.getD j 0) (i : ℕ) (v w : ℚ) (hvw : v ≤ w) :
    ∀ j, (lbN.set i v).getD j 0 ≤ (ubN.set i w).getD j 0 := by
  intro j
  by_cases hij : i = j
  · subst hij
    by_cases hi : i < lbN.length
    · rw [getD_set_self _ _ _ hi, getD_set_self _ _ _ (hlen ▸ hi)]
      exact hvw
    · rw [List.set_eq_of_length_le (le_of_not_lt hi),
        List.set_eq_of_length_le (le_of_not_lt (hlen ▸ hi))]
      exact hp i
  · rw [getD_set_ne _ _ _ _ hij, getD_set_ne _ _ _ _ hij]
    exact hp j

/-- The segmentation fill preserves elementwise bound ordering (for a
non-negative slice width) and the vector lengths. -/
theorem fill_slices_pairs (u δ : ℚ) (hδ : 0 ≤ δ) (i : ℕ) :
    ∀ (m k : ℕ) (lbN ubN : List ℚ),
    lbN.length = ubN.length →
    (∀ j, lbN.getD j 0 ≤ ubN.getD j 0) →
    ∀ lbR ubR, fill_slices u δ i k m lbN ubN = .ok (lbR, ubR) →
      lbR.length = lbN.length ∧ ubR.length = ubN.length ∧
      (∀ j, lbR.getD j 0 ≤ ubR.getD j 0) := by
  intro m
  induction m with
  | zero =>
    intro k lbN ubN hlen hp lbR ubR hok
    simp only [fill_slices, Except.ok.injEq, Prod.mk.injEq] at hok
    obtain ⟨h1, h2⟩ := hok
    subst h1
    subst h2
    exact ⟨rfl, rfl, hp⟩
  | succ m ih =>
    intro k lbN ubN hlen hp lbR ubR hok
    simp only [fill_slices] at hok
    by_cases hb : i + k < lbN.length
    · rw [setLE_is_ok _ _ _ hb, setLE_is_ok _ _ _ (hlen ▸ hb)] at hok
      have hpair : u - ((k : ℚ) + 1) * δ ≤ u - (k : ℚ) * δ := by nlinarith
      have hres := ih (k + 1)
        (lbN.set (i + k) (u - ((k : ℚ) + 1) * δ))
        (ubN.set (i + k) (u - (k : ℚ) * δ))
        (by simp [hlen])
        (pairs_set_set lbN ubN hlen hp (i + k) _ _ hpair)
        lbR ubR hok
      refine ⟨?_, ?_, hres.2.2⟩
      · rw [hres.1, List.length_set]
      · rw [hres.2.1, List.length_set]
    · rw [show setLE lbN (i + k) (u - ((k : ℚ) + 1) * δ) = .error "IndexError" from by
        unfold setLE; rw [if_neg hb]] at hok
      exact absurd hok (by simp)

/-- The _segment_tracks enumerate loop preserves elementwise bound
ordering of the output arrays, given that the input bound lists are
elementwise ordered. -/
theorem seg_loop_pairs (lb ub : List ℚ) (hin : ∀ j, lb.getD j 0 ≤ ub.getD j 0) :
    ∀ (r i : ℕ) (flag : Bool) (lastN : ℤ) (lbN ubN : List ℚ),
    lbN.length = ubN.length →
    (∀ j, lbN.getD j 0 ≤ ubN.getD j 0) →
    ∀ lbR ubR, seg_loop lb ub i r flag lastN lbN ubN = .ok (lbR, ubR) →
      lbR.length = lbN.length ∧ ubR.length = ubN.length ∧
      (∀ j, lbR.getD j 0 ≤ ubR.getD j 0) := by
  intro r
  induction r with
  | zero =>
    intro i flag lastN lbN ubN hlen hp lbR ubR hok
    simp only [seg_loop, Except.ok.injEq, Prod.mk.injEq] at hok
    obtain ⟨h1, h2⟩ := hok
    subst h1
    subst h2
    exact ⟨rfl, rfl, hp⟩
  | succ r ih =>
    intro i flag lastN lbN ubN hlen hp lbR ubR hok
    simp only [seg_loop] at hok
    split at hok
    · -- copy branch: a unique lower bound is copied with its upper bound
      by_cases hb1 : i < lbN.length
      · rw [setLE_is_ok _ _ _ hb1] at hok
        by_cases hb2 : i < ubN.length
        · rw [setLE_is_ok _ _ _ hb2] at hok
          have hres := ih (i + 1) false lastN
            (lbN.set i (lb.getD i 0)) (ubN.set i (ub.getD i 0))
            (by simp [hlen])
            (pairs_set_set lbN ubN hlen hp i _ _ (hin i))
            lbR ubR hok
          refine ⟨?_, ?_, hres.2.2⟩
          · rw [hres.1, List.length_set]
          · rw [hres.2.1, List.length_set]
        · rw [show setLE ubN i (ub.getD i 0) = .error "IndexError" from by
            unfold setLE; rw [if_neg hb2]] at hok
          exact absurd hok (by simp)
      · rw [show setLE lbN i (lb.getD i 0) = .error "IndexError" from by
          unfold setLE; rw [if_neg hb1]] at hok
        exact absurd hok (by simp)
    · by_cases hflag : (if (i : ℤ) = lastN then false else flag) = false
      · -- duplicate-group branch: the shared range is cut into slices
        rw [if_pos hflag] at hok
        have hδ : 0 ≤ (ub.getD i 0 - lb.getD i 0) / ((lb.count (lb.getD i 0) : ℕ) : ℚ) := by
          apply div_nonneg
          · have := hin i
            linarith
          · positivity
        split at hok
        · exact absurd hok (by simp)
        · rename_i lbN1 ubN1 heqf
          obtain ⟨hl1, hl2, hp1⟩ :=
            fill_slices_pairs _ _ hδ i _ 0 lbN ubN hlen hp _ _ heqf
          have hres := ih (i + 1) true _ lbN1 ubN1 (by rw [hl1, hl2, hlen]) hp1
            lbR ubR hok
          refine ⟨?_, ?_, hres.2.2⟩
          · rw [hres.1, hl1]
          · rw [hres.2.1, hl2]
      · -- skip branch inside a handled duplicate group
        rw [if_neg hflag] at hok
        exact ih (i + 1) _ lastN lbN ubN hlen hp lbR ubR hok

/-- _segment_tracks preserves elementwise bound ordering: whenever it
returns, every output lower bound is at most the matching upper bound. -/
theorem segment_tracks_pairs (lb ub : List ℚ) (hin : ∀ j, lb.getD j 0 ≤ ub.getD j 0)
    (hlen : lb.length = ub.length) (lbR ubR : List ℚ)
    (hok : segment_tracks lb ub = .ok (lbR, ubR)) :
    lbR.length = lb.length ∧ ubR.length = ub.length ∧
    (∀ j, lbR.getD j 0 ≤ ubR.getD j 0) := by
  unfold segment_tracks at hok
  have hres := seg_loop_pairs lb ub hin _ 0 false (-1)
    (List.replicate lb.length 0) (List.replicate ub.length 0)
    (by simp [hlen])
    (fun j => by rw [getD_replicate_self, getD_replicate_self])
    lbR ubR hok
  simpa using hres

/-- _get_bounds scan: with endpoints in [0, 1] and a running lower bound
that is 0 or at most l (and at most 1), the result pair is ordered. -/
theorem get_bounds_aux_le (l : ℚ) :
    ∀ (es : List ℚ) (lb0 : ℚ), (∀ e ∈ es, 0 ≤ e ∧ e ≤ 1) →
    (lb0 = 0 ∨ lb0 ≤ l) → lb0 ≤ 1 →
    (get_bounds_aux l es lb0).1 ≤ (get_bounds_aux l es lb0).2
  | [], lb0, _, _, h1 => by simpa [get_bounds_aux] using h1
  | ex :: rest, lb0, hmem, hlb, h1 => by
    unfold get_bounds_aux
    by_cases hc : l < ex
    · rw [if_pos hc]
      show lb0 ≤ ex
      rcases hlb with h | h
      · rw [h]
        exact (hmem ex (by simp)).1
      · linarith
    · rw [if_neg hc]
      exact get_bounds_aux_le l rest ex (fun e he => hmem e (by simp [he]))
        (Or.inr (le_of_not_lt hc)) (hmem ex (by simp)).2

/-- _get_bounds returns an ordered pair whenever all registered exclusion
endpoints lie in [0, 1]. -/
theorem get_bounds_le (exs : List (ℚ × ℚ)) (l : ℚ)
    (hex : ∀ p ∈ exs, (0 ≤ p.1 ∧ p.1 ≤ 1) ∧ (0 ≤ p.2 ∧ p.2 ≤ 1)) :
    (get_bounds exs l).1 ≤ (get_bounds exs l).2 := by
  apply get_bounds_aux_le
  · intro e he
    rw [List.mem_flatMap] at he
    obtain ⟨p, hp, hm⟩ := he
    simp only [List.mem_cons, List.mem_singleton, List.not_mem_nil, or_false] at hm
    rcases hm with rfl | rfl
    · exact (hex p hp).1
    · exact (hex p hp).2
  · exact Or.inl rfl
  · norm_num

/-- The per-coil loop of get_Lmap preserves the lengths of the three
vectors and keeps lower and upper bounds elementwise ordered. -/
theorem pf_loop_pairs (m : MapperM)
    (hex : ∀ p ∈ m.exclusions.getD [], (0 ≤ p.1 ∧ p.1 ≤ 1) ∧ (0 ≤ p.2 ∧ p.2 ≤ 1)) :
    ∀ (coils : List CoilM) (i : ℕ) (lv lbv ubv : List ℚ),
    lbv.length = ubv.length →
    (∀ j, lbv.getD j 0 ≤ ubv.getD j 0) →
    ∀ lvR lbR ubR, pf_loop m coils i lv lbv ubv = .ok (lvR, lbR, ubR) →
      lvR.length = lv.length ∧ lbR.length = lbv.length ∧ ubR.length = ubv.length ∧
      (∀ j, lbR.getD j 0 ≤ ubR.getD j 0) := by
  intro coils
  induction coils with
  | nil =>
    intro i lv lbv ubv hlen hp lvR lbR ubR hok
    simp only [pf_loop, Except.ok.injEq, Prod.mk.injEq] at hok
    obtain ⟨h1, h2, h3⟩ := hok
    subst h1
    subst h2
    subst h3
    exact ⟨rfl, rfl, rfl, hp⟩
  | cons c rest ih =>
    intro i lv lbv ubv hlen hp lvR lbR ubR hok
    simp only [pf_loop] at hok
    split at hok
    · -- no exclusions registered: bounds (0, 1)
      by_cases hb0 : i < lv.length
      · rw [setLE_is_ok _ _ _ hb0] at hok
        by_cases hb1 : i < lbv.length
        · rw [setLE_is_ok _ _ _ hb1] at hok
          by_cases hb2 : i < ubv.length
          · rw [setLE_is_ok _ _ _ hb2] at hok
            have hres := ih (i + 1) _ _ _ (by simp [hlen])
              (pairs_set_set lbv ubv hlen hp i 0 1 (by norm_num)) lvR lbR ubR hok
            refine ⟨?_, ?_, ?_, hres.2.2.2⟩
            · rw [hres.1, List.length_set]
            · rw [hres.2.1, List.length_set]
            · rw [hres.2.2.1, List.length_set]
          · rw [show setLE ubv i 1 = .error "IndexError" from by
              unfold setLE; rw [if_neg hb2]] at hok
            exact absurd hok (by simp)
        · rw [show setLE lbv i 0 = .error "IndexError" from by
            unfold setLE; rw [if_neg hb1]] at hok
          exact absurd hok (by simp)
      · rw [show setLE lv i (m.xz_to_L c.x c.z) = .error "IndexError" from by
          unfold setLE; rw [if_neg hb0]] at hok
        exact absurd hok (by simp)
    · -- registered but empty exclusion list: NameError
      exact absurd hok (by simp)
    · -- non-empty exclusion list: nudge and _get_bounds
      rename_i exs hnonempty heq
      have hex2 : ∀ p ∈ exs, (0 ≤ p.1 ∧ p.1 ≤ 1) ∧ (0 ≤ p.2 ∧ p.2 ≤ 1) := by
        rw [heq] at hex
        simpa using hex
      have hgb := get_bounds_le exs
        (nudge exs (m.xz_to_L c.x c.z) c.rc m.plen) hex2
      by_cases hb0 : i < lv.length
      · rw [setLE_is_ok _ _ _ hb0] at hok
        by_cases hb1 : i < lbv.length
        · rw [setLE_is_ok _ _ _ hb1] at hok
          by_cases hb2 : i < ubv.length
          · rw [setLE_is_ok _ _ _ hb2] at hok
            have hres := ih (i + 1) _ _ _ (by simp [hlen])
              (pairs_set_set lbv ubv hlen hp i _ _ hgb) lvR lbR ubR hok
            refine ⟨?_, ?_, ?_, hres.2.2.2⟩
            · rw [hres.1, List.length_set]
            · rw [hres.2.1, List.length_set]
            · rw [hres.2.2.1, List.length_set]
          · rw [show setLE ubv i (get_bounds exs
                (nudge exs (m.xz_to_L c.x c.z) c.rc m.plen)).2 =
                .error "IndexError" from by
              unfold setLE; rw [if_neg hb2]] at hok
            exact absurd hok (by simp)
        · rw [show setLE lbv i (get_bounds exs
              (nudge exs (m.xz_to_L c.x c.z) c.rc m.plen)).1 =
              .error "IndexError" from by
            unfold setLE; rw [if_neg hb1]] at hok
          exact absurd hok (by simp)
      · rw [show setLE lv i (nudge exs (m.xz_to_L c.x c.z) c.rc m.plen) =
            .error "IndexError" from by
          unfold setLE; rw [if_neg hb0]] at hok
        exact absurd hok (by simp)

/-- Elementwise ordering of two lists from getD comparisons. -/
theorem forall₂_le_of_getD : ∀ (as bs : List ℚ), as.length = bs.length →
    (∀ j, as.getD j 0 ≤ bs.getD j 0) → List.Forall₂ (· ≤ ·) as bs
  | [], [], _, _ => .nil
  | [], _ :: _, hlen, _ => by simp at hlen
  | _ :: _, [], hlen, _ => by simp at hlen
  | a :: as, b :: bs, hlen, h => by
    constructor
    · simpa using h 0
    · exact forall₂_le_of_getD as bs (by simpa using hlen)
        (fun j => by simpa using h (j + 1))

/-- numpy clip keeps a value between ordered bounds. -/
theorem clipQ_between (x lo hi : ℚ) (h : lo ≤ hi) :
    lo ≤ clipQ x lo hi ∧ clipQ x lo hi ≤ hi := by
  unfold clipQ
  exact ⟨le_min (le_max_right x lo) h, min_le_right _ _⟩

/-- Clipping the position vector into ordered bounds places it between
them elementwise. -/
theorem zipWith3_clip_pairs : ∀ (lv lb2 ub2 : List ℚ),
    lv.length = lb2.length →
    List.Forall₂ (· ≤ ·) lb2 ub2 →
    List.Forall₂ (· ≤ ·) lb2 (zipWith3 clipQ lv lb2 ub2) ∧
    List.Forall₂ (· ≤ ·) (zipWith3 clipQ lv lb2 ub2) ub2
  | [], [], ub2, _, hf => by
    cases hf
    exact ⟨.nil, .nil⟩
  | [], _ :: _, _, hlen, _ => by simp at hlen
  | _ :: _, [], _, hlen, hf => by
    cases hf
    simp at hlen
  | x :: lv, lo :: lb2, ub2, hlen, hf => by
    cases hf with
    | cons hhead htail =>
      have hrec := zipWith3_clip_pairs lv lb2 _ (by simpa using hlen) htail
      have hcl := clipQ_between x lo _ hhead
      exact ⟨.cons hcl.1 hrec.1, .cons hcl.2 hrec.2⟩

/-- A list of non-negative values dominates the zero vector of its length. -/
theorem forall₂_replicate_zero : ∀ (l : List ℚ), (∀ v ∈ l, 0 ≤ v) →
    List.Forall₂ (· ≤ ·) (List.replicate l.length 0) l
  | [], _ => .nil
  | v :: l, h => by
    simp only [List.length_cons, List.replicate_succ]
    exact .cons (h v (by simp)) (forall₂_replicate_zero l (fun w hw => h w (by simp [hw])))

/-- A list of values at most one is dominated by the all-ones vector. -/
theorem forall₂_replicate_one : ∀ (l : List ℚ), (∀ v ∈ l, v ≤ 1) →
    List.Forall₂ (· ≤ ·) l (List.replicate l.length 1)
  | [], _ => .nil
  | v :: l, h => by
    simp only [List.length_cons, List.replicate_succ]
    exact .cons (h v (by simp)) (forall₂_replicate_one l (fun w hw => h w (by simp [hw])))

/-- The bounds-checked CS track interpolator returns values in [0, 1]. -/
theorem cstrack_L_ok_bounds (z_min z_max z v : ℚ) (hzz : z_min < z_max)
    (h : cstrack_L z_min z_max z = .ok v) : 0 ≤ v ∧ v ≤ 1 := by
  unfold cstrack_L at h
  split at h
  · rename_i hr
    injection h with h
    subst h
    constructor
    · apply div_nonneg
      · linarith [hr.2]
      · linarith
    · rw [div_le_one (by linarith)]
      linarith [hr.1]
  · cases h

/-- Members of a successful effectful map come from successful
applications of the mapped function. -/
theorem mapME_ok_mem (f : ℚ → Except String ℚ) :
    ∀ (l out : List ℚ), mapME f l = .ok out → ∀ v ∈ out, ∃ a, f a = .ok v
  | [], out, h => by
    simp only [mapME, Except.ok.injEq] at h
    subst h
    simp
  | x :: xs, out, h => by
    simp only [mapME] at h
    split at h
    · cases h
    · rename_i y hy
      split at h
      · cases h
      · rename_i ys hys
        injection h with h
        subst h
        intro v hv
        rcases List.mem_cons.mp hv with rfl | hv2
        · exact ⟨x, hy⟩
        · exact mapME_ok_mem f xs ys hys v hv2

/-- A successful effectful map preserves length. -/
theorem mapME_ok_length (f : ℚ → Except String ℚ) :
    ∀ (l out : List ℚ), mapME f l = .ok out → out.length = l.length
  | [], out, h => by
    simp only [mapME, Except.ok.injEq] at h
    subst h
    rfl
  | x :: xs, out, h => by
    simp only [mapME] at h
    split at h
    · cases h
    · split at h
      · cases h
      · rename_i ys hys
        injection h with h
        subst h
        simpa using mapME_ok_length f xs ys hys

theorem insertDesc_length (x : ℚ) : ∀ (l : List ℚ),
    (insertDesc x l).length = l.length + 1
  | [] => rfl
  | y :: ys => by
    unfold insertDesc
    by_cases h : y ≤ x
    · rw [if_pos h]
      rfl
    · rw [if_neg h]
      simpa using insertDesc_length x ys

theorem sortDesc_length : ∀ (l : List ℚ), (sortDesc l).length = l.length
  | [] => rfl
  | x :: xs => by
    show (insertDesc x (sortDesc xs)).length = xs.length + 1
    rw [insertDesc_length, sortDesc_length xs]

theorem edge_loop_length (gap : ℚ) : ∀ (p : ℚ) (l : List ℚ),
    (edge_loop gap p l).length = l.length
  | _, [] => rfl
  | p, z :: zs => by
    show (edge_loop gap (z - (p - z - gap)) zs).length + 1 = zs.length + 1
    rw [edge_loop_length gap _ zs]

/-- Every value of a successful z_to_L conversion lies in [0, 1]. -/
theorem z_to_L_mem_bounds (z_min z_max gap : ℚ) (hzz : z_min < z_max)
    (zc out : List ℚ) (h : z_to_L z_min z_max gap zc = .ok out) :
    ∀ v ∈ out, 0 ≤ v ∧ v ≤ 1 := by
  simp only [z_to_L] at h
  split at h
  · cases h
  · injection h with h
    subst h
    intro v hv
    rcases List.mem_singleton.mp hv with rfl
    norm_num
  · intro v hv
    obtain ⟨a, ha⟩ := mapME_ok_mem _ _ _ h v hv
    exact cstrack_L_ok_bounds z_min z_max a v hzz ha

/-- A successful z_to_L conversion returns one L value per module. -/
theorem z_to_L_ok_length (z_min z_max gap : ℚ) (zc out : List ℚ)
    (h : z_to_L z_min z_max gap zc = .ok out) : out.length = zc.length := by
  simp only [z_to_L] at h
  split at h
  · cases h
  · rename_i zs z hsort
    injection h with h
    subst h
    have := sortDesc_length zc
    rw [hsort] at this
    simpa using this
  · rename_i zs z0 z1 rest hsort
    have hlen := mapME_ok_length _ _ _ h
    have hsl := sortDesc_length zc
    rw [hsort] at hsl
    rw [hlen]
    simp only [List.length_append, List.length_cons, edge_loop_length,
      List.length_dropLast, List.length_nil]
    simp only [List.length_cons] at hsl
    omega

/-! ## C2: get_Lmap bound ordering -/

/-- C2: whenever XZLMapper.get_Lmap returns a triple (L, lb, ub) — for any
coilset, coil-name mapping and registered exclusion configuration (whose
endpoints are normalised track coordinates in [0, 1], as produced by
add_exclusion_zones), with a proper CS interval when CS mapping is enabled
— the bounds hold elementwise: lb[i] ≤ L[i] ≤ ub[i] for every index,
including the appended central-solenoid entries.  List.Forall₂ also forces
the three vectors to have equal lengths. -/
theorem get_Lmap_bounds (m : MapperM) (coils : List CoilM) (mapping : List String)
    (hex : ∀ p ∈ m.exclusions.getD [], (0 ≤ p.1 ∧ p.1 ≤ 1) ∧ (0 ≤ p.2 ∧ p.2 ≤ 1))
    (hcs : m.flag_CS = true → m.z_min < m.z_max)
    (L lb ub : List ℚ)
    (hok : get_Lmap m coils mapping = .ok (L, lb, ub)) :
    List.Forall₂ (· ≤ ·) lb L ∧ List.Forall₂ (· ≤ ·) L ub := by
  simp only [get_Lmap] at hok
  split at hok
  · cases hok
  · rename_i lv lb1 ub1 heq1
    split at hok
    · cases hok
    · rename_i lb2 ub2 heq2
      obtain ⟨hlv, hlb1, hub1, hp1⟩ := pf_loop_pairs m hex _ 0 _ _ _ rfl
        (fun _ => le_refl _) lv lb1 ub1 heq1
      obtain ⟨hlb2, hub2, hp2⟩ := segment_tracks_pairs lb1 ub1 hp1
        (by rw [hlb1, hub1]) lb2 ub2 heq2
      have hf2 : List.Forall₂ (· ≤ ·) lb2 ub2 :=
        forall₂_le_of_getD lb2 ub2 (by rw [hlb2, hub2, hlb1, hub1]) hp2
      have hlvlen : lv.length = lb2.length := by
        rw [hlv, hlb2, hlb1]
      have hclip := zipWith3_clip_pairs lv lb2 ub2 hlvlen hf2
      split at hok
      · -- CS mapping enabled: append the CS entries with [0, 1] bounds
        rename_i hflag
        split at hok
        · cases hok
        · rename_i l_cs heq3
          simp only [Except.ok.injEq, Prod.mk.injEq] at hok
          obtain ⟨h1, h2, h3⟩ := hok
          subst h1
          subst h2
          subst h3
          have hmem := z_to_L_mem_bounds m.z_min m.z_max m.gap (hcs hflag) _ l_cs heq3
          have hlen_cs := z_to_L_ok_length m.z_min m.z_max m.gap _ l_cs heq3
          constructor
          · refine List.rel_append hclip.1 ?_
            rw [← hlen_cs]
            exact forall₂_replicate_zero l_cs (fun v hv => (hmem v hv).1)
          · refine List.rel_append hclip.2 ?_
            rw [← hlen_cs]
            exact forall₂_replicate_one l_cs (fun v hv => (hmem v hv).2)
      · -- no CS mapping
        simp only [Except.ok.injEq, Prod.mk.injEq] at hok
        obtain ⟨h1, h2, h3⟩ := hok
        subst h1
        subst h2
        subst h3
        exact hclip

/-- A concrete mapper used as an evaluation witness: the track inverse
always answers 1/2, no exclusions are registered, CS mapping is off. -/
def witnessMapper : MapperM := ⟨fun _ _ => 1/2, 10, none, false, 0, 0, 0⟩

theorem get_Lmap_bounds_witness :
    List.Forall₂ (· ≤ ·) [(0 : ℚ)] [(1 : ℚ)/2] ∧
    List.Forall₂ (· ≤ ·) [(1 : ℚ)/2] [(1 : ℚ)] :=
  get_Lmap_bounds witnessMapper [⟨"PF_1", 4, 0, 1/10, "PF"⟩] ["PF_1"]
    (by simp [witnessMapper]) (by simp [witnessMapper])
    [(1 : ℚ)/2] [(0 : ℚ)] [(1 : ℚ)]
    (by norm_num [get_Lmap, pf_loop, segment_tracks, seg_loop, setLE,
      zipWith3, clipQ, witnessMapper, List.count_cons])

end Positioner
